import Mathlib

/-!
Verification development for a cross-exchange spot arbitrage scanner.

The Python source is shallowly embedded: IEEE-754 floats are idealized as
exact rationals (`ℚ`), Python ints as `ℤ`/`ℕ`, Python dicts as insertion
ordered association lists, and fallible operations (float division,
`Decimal.quantize`) return `Except`/sentinel values where the source raises.
All definitions are executable.
-/

namespace Airbitrage

/-- Association-list lookup, mirroring Python `dict.get`. -/
def alookup {α β : Type} [DecidableEq α] (k : α) : List (α × β) → Option β
  | [] => none
  | (k', v) :: rest => if k' = k then some v else alookup k rest

/-- Association-list insert/replace, mirroring Python `dict.__setitem__`:
replaces in place if the key is present, else appends (insertion order). -/
def aset {α β : Type} [DecidableEq α] (k : α) (v : β) : List (α × β) → List (α × β)
  | [] => [(k, v)]
  | (k', v') :: rest => if k' = k then (k, v) :: rest else (k', v') :: aset k v rest

/-- The `Quote` dataclass of `main.py`: top-of-book for one `(venue, pair)`.
Prices and sizes are idealized rationals; `ts_ms` is wall-clock milliseconds
with `0` meaning never updated. -/
structure Quote where
  bid : Option ℚ := none
  ask : Option ℚ := none
  bid_sz : Option ℚ := none
  ask_sz : Option ℚ := none
  bid_str : Option String := none
  ask_str : Option String := none
  ts_ms : ℤ := 0
  deriving DecidableEq, Repr

/-- The `ArbState` dataclass of `main.py`: hysteresis state for one
opportunity key. -/
structure ArbState where
  in_window : Bool := false
  since_ms : Option ℤ := none
  deriving DecidableEq, Repr

/-- Opportunity key `(pair, buy_venue, sell_venue)`. -/
abbrev ArbKey : Type := String × String × String

/-- The process-wide `arb_states` dict, as an association list. -/
abbrev StateMap : Type := List (ArbKey × ArbState)

/-- `config.THRESH_ENTER_PCT = 0.4`, so `THRESH_ENTER = 0.4 / 100`. -/
def THRESH_ENTER : ℚ := 4 / 1000

/-- `config.THRESH_EXIT_PCT = 0.3`, so `THRESH_EXIT = 0.3 / 100`. -/
def THRESH_EXIT : ℚ := 3 / 1000

/-- `config.MAX_PROFIT_PCT = 10.0`. -/
def MAX_PROFIT_PCT : ℚ := 10

/-- `config.LONG_SECS = 3 * 60`. -/
def LONG_SECS : ℤ := 180

/-- `config.STALE_SECS = 10 * 60`. -/
def STALE_SECS : ℚ := 600

/-- `config.MAX_DECIMALS = 12`. -/
def MAX_DECIMALS : ℕ := 12

/-- The effective hysteresis state of a key: a key absent from the dict
behaves as the freshly created `ArbState()` default. -/
def effState (m : StateMap) (k : ArbKey) : ArbState :=
  (alookup k m).getD { in_window := false, since_ms := none }

/-- `update_hysteresis` from `main.py` (lines 168-180): lazily creates the
state, enters the window on `profit_frac ≥ THRESH_ENTER`, exits on
`profit_frac < THRESH_EXIT`, and returns the updated map together with the
resulting `in_window` flag. -/
def updateHysteresis (m : StateMap) (key : ArbKey) (profit_frac : ℚ) (nowms : ℤ) :
    StateMap × Bool :=
  let st := effState m key
  let st' : ArbState :=
    if !st.in_window then
      if profit_frac ≥ THRESH_ENTER then { in_window := true, since_ms := some nowms } else st
    else
      if profit_frac < THRESH_EXIT then { in_window := false, since_ms := none } else st
  (aset key st' m, st'.in_window)

/-- `is_long` from `main.py` (lines 182-186). -/
def isLong (m : StateMap) (key : ArbKey) (nowms : ℤ) : Bool :=
  match alookup key m with
  | none => false
  | some st =>
    if !st.in_window then false
    else
      match st.since_ms with
      | none => false
      | some s => decide (nowms - s ≥ LONG_SECS * 1000)

/-- `age_sec` from `main.py` (lines 33-35): infinite (`⊤`) when never
updated, else the clamped age in seconds. -/
def ageSec (nowms : ℤ) (ts_ms : ℤ) : WithTop ℚ :=
  if ts_ms ≤ 0 then ⊤ else (max 0 ((nowms - ts_ms : ℚ) / 1000) : ℚ)

/-- The quote table `self.prices : venue → pair → Quote`, as nested
association lists in insertion order. -/
abbrev PriceTable : Type := List (String × List (String × Quote))

/-- `self.prices.get(m, {}).get(pair)`. -/
def plookupQuote (prices : PriceTable) (m pair : String) : Option Quote :=
  (alookup m prices).bind (alookup pair)

/-- The opportunity dict built by `compute_arbitrages`. -/
structure Op where
  pair : String
  buy_mkt : String
  sell_mkt : String
  buy_price : ℚ
  sell_price : ℚ
  buy_price_str : Option String
  sell_price_str : Option String
  profit_pct : ℚ
  buy_qty : ℚ
  sell_qty : ℚ
  exec_qty : ℚ
  qty : ℚ
  buy_age : WithTop ℚ
  sell_age : WithTop ℚ
  long : Bool
  deriving DecidableEq, Repr

/-- The set `pairs_all` of `compute_arbitrages`; Python iterates a `set`, so
the order is unspecified — we fix the order produced by `List.dedup`. -/
def pairsAll (markets : List String) (prices : PriceTable) : List String :=
  (markets.flatMap fun m => ((alookup m prices).getD []).map Prod.fst).dedup

/-- The `avail` list of `compute_arbitrages`: venues quoting both sides of
the pair. -/
def availFor (markets : List String) (prices : PriceTable) (pair : String) :
    List (String × Quote) :=
  markets.filterMap fun m =>
    match plookupQuote prices m pair with
    | none => none
    | some q => if q.ask = none ∨ q.bid = none then none else some (m, q)

/-- The body of the inner `for m_sell, q_sell in avail` loop of
`compute_arbitrages`.  Python float division by zero raises
`ZeroDivisionError`, modelled by `Except.error ()`. -/
def candidateStep (nms : ℤ) (pair m_buy : String) (q_buy : Quote)
    (acc : List Op × StateMap) (ms : String × Quote) :
    Except Unit (List Op × StateMap) :=
  let m_sell := ms.1
  let q_sell := ms.2
  if m_sell = m_buy ∨ q_sell.bid = none ∨ q_sell.bid_sz = none then Except.ok acc
  else
    let a := q_buy.ask.getD 0
    let b := q_sell.bid.getD 0
    if a = 0 then Except.error ()
    else
      let profit_frac := (b - a) / a
      let profit_pct := profit_frac * 100
      if profit_pct > MAX_PROFIT_PCT then Except.ok acc
      else
        let key : ArbKey := (pair, m_buy, m_sell)
        let upd := updateHysteresis acc.2 key profit_frac nms
        if !upd.2 then Except.ok (acc.1, upd.1)
        else
          let buy_qty := q_buy.ask_sz.getD 0
          let sell_qty := q_sell.bid_sz.getD 0
          let op : Op :=
            { pair := pair
              buy_mkt := m_buy
              sell_mkt := m_sell
              buy_price := a
              sell_price := b
              buy_price_str := q_buy.ask_str
              sell_price_str := q_sell.bid_str
              profit_pct := profit_pct
              buy_qty := buy_qty
              sell_qty := sell_qty
              exec_qty := min buy_qty sell_qty
              qty := min buy_qty sell_qty
              buy_age := ageSec nms q_buy.ts_ms
              sell_age := ageSec nms q_sell.ts_ms
              long := isLong upd.1 key nms }
          Except.ok (acc.1 ++ [op], upd.1)

/-- The body of the `for m_buy, q_buy in avail` loop of
`compute_arbitrages`. -/
def buyStep (nms : ℤ) (pair : String) (avail : List (String × Quote))
    (acc : List Op × StateMap) (mb : String × Quote) :
    Except Unit (List Op × StateMap) :=
  if mb.2.ask = none ∨ mb.2.ask_sz = none then Except.ok acc
  else avail.foldlM (candidateStep nms pair mb.1 mb.2) acc

/-- The body of the `for pair in pairs_all` loop of `compute_arbitrages`. -/
def scanPair (markets : List String) (prices : PriceTable) (nms : ℤ)
    (acc : List Op × StateMap) (pair : String) :
    Except Unit (List Op × StateMap) :=
  let avail := availFor markets prices pair
  if avail.length < 2 then Except.ok acc
  else avail.foldlM (buyStep nms pair avail) acc

/-- Final sort order of `compute_arbitrages`: `profit_pct` descending. -/
def opRel (a b : Op) : Prop := b.profit_pct ≤ a.profit_pct

instance opRelDecidable : DecidableRel opRel :=
  fun a b => inferInstanceAs (Decidable (b.profit_pct ≤ a.profit_pct))

/-- `compute_arbitrages` from `main.py` (lines 309-368), over an explicit
quote table, hysteresis map and clock.  Returns the ranked opportunity list
and the mutated hysteresis map, or `Except.error ()` when the Python code
raises `ZeroDivisionError`. -/
def computeArbitrages (markets : List String) (prices : PriceTable)
    (st0 : StateMap) (nms : ℤ) : Except Unit (List Op × StateMap) :=
  match (pairsAll markets prices).foldlM (scanPair markets prices nms)
      (([], st0) : List Op × StateMap) with
  | Except.error e => Except.error e
  | Except.ok r => Except.ok (List.insertionSort opRel r.1, r.2)

/-- A row of `list_stale`: `(venue, pair, age_sec, Quote)`. -/
abbrev StaleRow : Type := String × String × WithTop ℚ × Quote

/-- The Python sort key `(-age, venue, pair)` of `list_stale`, as a value in
a lexicographic linear order (age descending first). -/
def staleKey (r : StaleRow) : Lex ((WithTop ℚ)ᵒᵈ × Lex (String × String)) :=
  toLex (OrderDual.toDual r.2.2.1, toLex (r.1, r.2.1))

/-- Sort order of `list_stale`: age descending, then venue, then pair. -/
def staleRel (r1 r2 : StaleRow) : Prop := staleKey r1 ≤ staleKey r2

instance staleRelDecidable : DecidableRel staleRel :=
  fun a b => inferInstanceAs (Decidable (staleKey a ≤ staleKey b))

instance staleRelTotal : IsTotal StaleRow staleRel :=
  ⟨fun a b => le_total (staleKey a) (staleKey b)⟩

instance staleRelTrans : IsTrans StaleRow staleRel :=
  ⟨fun _ _ _ h1 h2 => le_trans h1 h2⟩

/-- `list_stale` from `main.py` (lines 370-378). -/
def listStale (prices : PriceTable) (nms : ℤ) : List StaleRow :=
  let rows := prices.flatMap fun mp =>
    mp.2.filterMap fun pq =>
      let a := ageSec nms pq.2.ts_ms
      if (STALE_SECS : WithTop ℚ) ≤ a then some (mp.1, pq.1, a, pq.2) else none
  List.insertionSort staleRel rows

/-- Most-significant-first value of a digit list. -/
def fromDigitsBE (l : List ℕ) : ℕ :=
  l.foldl (fun a d => 10 * a + d) 0

/-- Fuel-based big-endian base-10 digit extraction (structural recursion so
it reduces in the kernel). -/
def digitsBEAux : ℕ → ℕ → List ℕ
  | 0, _ => []
  | _, 0 => []
  | fuel + 1, n + 1 => digitsBEAux fuel ((n + 1) / 10) ++ [(n + 1) % 10]

/-- Big-endian base-10 digits of `n`; `digitsBE 0 = []`. -/
def digitsBE (n : ℕ) : List ℕ :=
  digitsBEAux n n

/-- Number of digits of a `Decimal` coefficient (Python counts `0` as one
digit, but the only use is comparison against the context precision, for
which the two conventions agree). -/
def numDigits (n : ℕ) : ℕ :=
  (digitsBE n).length

/-- Left-pad a digit list with zeros to length `n`. -/
def padZeros (n : ℕ) (l : List ℕ) : List ℕ :=
  List.replicate (n - l.length) 0 ++ l

/-- Digit to character. -/
def digitChar (d : ℕ) : Char :=
  match d with
  | 0 => '0' | 1 => '1' | 2 => '2' | 3 => '3' | 4 => '4'
  | 5 => '5' | 6 => '6' | 7 => '7' | 8 => '8' | 9 => '9'
  | _ => '*'

/-- Decimal digit test on characters. -/
def isDigC (c : Char) : Bool :=
  '0' ≤ c && c ≤ '9'

/-- Character to digit value. -/
def charToDigit (c : Char) : ℕ :=
  c.toNat - 48

/-- Most-significant-first value of a digit character list. -/
def digitsOfChars (l : List Char) : ℕ :=
  l.foldl (fun a c => 10 * a + charToDigit c) 0

/-- A finite `decimal.Decimal` value: `±coeff × 10^exp`. -/
structure DecNum where
  neg : Bool
  coeff : ℕ
  exp : ℤ
  deriving DecidableEq, Repr

/-- A `decimal.Decimal` as produced by the constructor: finite, NaN
(signaling NaNs are also modelled as NaN — both are non-finite) or
infinite. -/
inductive PyDec where
  | finite (d : DecNum)
  | nan
  | inf (neg : Bool)
  deriving DecidableEq, Repr

/-- The rational value of a finite decimal. -/
def decValue (d : DecNum) : ℚ :=
  (if d.neg then -1 else 1) * (d.coeff : ℚ) * (10 : ℚ) ^ d.exp

/-- Optional leading sign. -/
def parseSign : List Char → Bool × List Char
  | [] => (false, [])
  | c :: r => if c = '-' then (true, r) else if c = '+' then (false, r) else (false, c :: r)

/-- All characters are decimal digits. -/
def allDigits (l : List Char) : Bool :=
  l.all isDigC

/-- Keyword forms accepted by the `Decimal` constructor: `inf`, `infinity`,
`nan` and `snan` (case-insensitive, NaNs with an optional digit payload). -/
def parseKeyword (neg : Bool) (l : List Char) : Option PyDec :=
  let low := l.map Char.toLower
  if low.take 3 = ['i', 'n', 'f'] &&
      (low.drop 3 = [] || low.drop 3 = ['i', 'n', 'i', 't', 'y']) then
    some (.inf neg)
  else if low.take 3 = ['n', 'a', 'n'] && allDigits (low.drop 3) then
    some .nan
  else if low.take 4 = ['s', 'n', 'a', 'n'] && allDigits (low.drop 4) then
    some .nan
  else none

/-- Optional exponent suffix `E[sign]digits`; fails unless the remainder is
consumed entirely. -/
def parseExpPart : List Char → Option ℤ
  | [] => some 0
  | c :: r =>
    if c = 'e' ∨ c = 'E' then
      let sr := parseSign r
      let ds := sr.2.takeWhile isDigC
      let rest := sr.2.dropWhile isDigC
      if ds = [] ∨ rest ≠ [] then none
      else some (if sr.1 then -(digitsOfChars ds : ℤ) else (digitsOfChars ds : ℤ))
    else none

/-- Numeric forms accepted by the `Decimal` constructor:
`digits[.digits][E[sign]digits]` with at least one digit. -/
def parseNumeric (neg : Bool) (l : List Char) : Option PyDec :=
  let ip := l.takeWhile isDigC
  let r1 := l.dropWhile isDigC
  let fr : List Char × List Char :=
    match r1 with
    | [] => ([], [])
    | c :: r =>
      if c = '.' then (r.takeWhile isDigC, r.dropWhile isDigC) else ([], c :: r)
  if ip = [] ∧ fr.1 = [] then none
  else
    match parseExpPart fr.2 with
    | none => none
    | some e => some (.finite ⟨neg, digitsOfChars (ip ++ fr.1), e - fr.1.length⟩)

/-- The `decimal.Decimal` string constructor (whitespace trimming omitted:
the strings of interest carry none); `none` models `InvalidOperation`.
Numeric and keyword forms are disjoint, so trying the numeric grammar first
is immaterial. -/
def parseDecimal (s : String) : Option PyDec :=
  let sr := parseSign s.toList
  if sr.2 = [] then none
  else
    match parseNumeric sr.1 sr.2 with
    | some d => some d
    | none => parseKeyword sr.1 sr.2

/-- `Decimal.quantize(Decimal('1e-maxDec'), rounding=ROUND_DOWN)` on the
magnitude: the coefficient of the result (truncation toward zero). -/
def quantizeDown (c : ℕ) (e : ℤ) (maxDec : ℕ) : ℕ :=
  if 0 ≤ e + maxDec then c * 10 ^ (e + maxDec).toNat
  else c / 10 ^ (-(e + maxDec)).toNat

/-- `format(q, 'f')` for a `Decimal` with coefficient `c` and exponent
`-m`: plain fixed-point rendering, never scientific. -/
def fixedRender (negSign : Bool) (c : ℕ) (m : ℕ) : List Char :=
  let ds := padZeros (m + 1) (digitsBE c)
  let s :=
    if m = 0 then ds.map digitChar
    else (ds.take (ds.length - m)).map digitChar ++
      '.' :: (ds.drop (ds.length - m)).map digitChar
  if negSign then '-' :: s else s

/-- Python `l.rstrip(c)` for a single character. -/
def rstripChar (c : Char) (l : List Char) : List Char :=
  (l.reverse.dropWhile (fun x => x = c)).reverse

/-- The tail of `_pretty_number`:
`if '.' in s: s = s.rstrip('0').rstrip('.')`. -/
def stripTrailing (l : List Char) : List Char :=
  if '.' ∈ l then rstripChar '.' (rstripChar '0' l) else l

/-- The tail of `_pretty_number`: `if s == "-0": s = "0"`. -/
def negZeroFix (l : List Char) : List Char :=
  if l = ['-', '0'] then ['0'] else l

/-- Quantization, rendering and cleanup of a constructed `Decimal`, i.e.
`_pretty_number` after `d` is fixed.  Returns `"None"` for non-finite
values and when `quantize` raises `InvalidOperation` because the result
coefficient exceeds the context precision `max_dec + 8`. -/
def renderDec (d : PyDec) (maxDec : ℕ) : String :=
  match d with
  | .finite dn =>
    let c := quantizeDown dn.coeff dn.exp maxDec
    if numDigits c > maxDec + 8 then "None"
    else ⟨negZeroFix (stripTrailing (fixedRender dn.neg c maxDec))⟩
  | _ => "None"

/-- A Python float argument: either finite — carrying the decimal denotation
of `str(f)` — or non-finite. -/
inductive PyFloat where
  | finite (d : DecNum)
  | nan
  | inf
  | ninf
  deriving DecidableEq, Repr

/-- `_pretty_number` from `main.py` (lines 42-80): try the string through
`Decimal` first; only if that construction fails fall back to the float,
which is used only when finite; render via `renderDec`. -/
def prettyNumber (value_str : Option String) (value_float : Option PyFloat)
    (maxDec : ℕ) : String :=
  let d0 : Option PyDec :=
    match value_str with
    | some s => parseDecimal s
    | none => none
  match d0 with
  | some d => renderDec d maxDec
  | none =>
    match value_float with
    | some (.finite fd) => renderDec (.finite fd) maxDec
    | some _ => "None"
    | none => "None"

/-- `fmt_full` from `main.py`: `_pretty_number` at `MAX_DECIMALS`. -/
def fmtFull (s : Option String) (f : Option PyFloat) : String :=
  prettyNumber s f MAX_DECIMALS

/-- Modelled from the spec: `canonicalize(s)` "truncates trailing zeros
after a decimal point, removes a trailing point, and normalizes `"-0"` to
`"0"`". -/
def canonicalize (s : String) : String :=
  ⟨negZeroFix (stripTrailing s.toList)⟩

/-- A plain finite decimal literal `[-]digits[.digits]`, the shape of the
price strings the formatter claims quantify over. -/
structure DecStr where
  neg : Bool
  intDigits : List ℕ
  fracDigits : List ℕ
  deriving DecidableEq, Repr

/-- The literal string of a `DecStr`. -/
def DecStr.render (ds : DecStr) : String :=
  ⟨(if ds.neg then ['-'] else []) ++ ds.intDigits.map digitChar ++
    (if ds.fracDigits = [] then [] else '.' :: ds.fracDigits.map digitChar)⟩

/-- Well-formedness of a plain decimal literal: a nonempty integer part of
digits below ten with no redundant leading zero, and fraction digits below
ten. -/
def DecStr.WF (ds : DecStr) : Prop :=
  ds.intDigits ≠ [] ∧ (∀ d ∈ ds.intDigits, d < 10) ∧
    (∀ d ∈ ds.fracDigits, d < 10) ∧
    (ds.intDigits.head? = some 0 → ds.intDigits = [0])

instance (ds : DecStr) : Decidable ds.WF := by
  unfold DecStr.WF; infer_instance

/-- The `Decimal` denoted by a plain decimal literal. -/
def DecStr.toDecNum (ds : DecStr) : DecNum :=
  ⟨ds.neg, fromDigitsBE (ds.intDigits ++ ds.fracDigits), -(ds.fracDigits.length : ℤ)⟩

/-- Python `float(s)`, idealized as the exact rational the literal denotes;
non-finite floats are outside the model. -/
def pyFloatOfString (s : String) : Option ℚ :=
  match parseDecimal s with
  | some (.finite d) => some (decValue d)
  | _ => none

/-- A Binance depth level: price and size strings as sent by the venue. -/
structure BLvl where
  px : String
  sz : String
  deriving DecidableEq, Repr

/-- A Binance partial-depth frame, after JSON decoding and symbol
extraction. -/
structure BFrame where
  sym : String
  bids : List BLvl
  asks : List BLvl
  deriving DecidableEq, Repr

/-- `BinanceMarket._pair_to_binance`: `pair.replace("/", "").upper()`. -/
def pairToBinance (p : String) : String :=
  ⟨(p.toList.filter (fun c => c ≠ '/')).map Char.toUpper⟩

/-- Per-frame processing of `BinanceMarket._consume` (lines 89-107): route
the symbol, require BOTH depth lists nonempty, parse the four numbers,
publish the venue strings verbatim with a local timestamp. -/
def binanceStep (batch : List String) (f : BFrame) (now : ℤ) :
    Option (String × Quote) :=
  match batch.find? (fun p => pairToBinance p == f.sym) with
  | none => none
  | some pair =>
    match f.bids, f.asks with
    | b0 :: _, a0 :: _ =>
      match pyFloatOfString b0.px, pyFloatOfString b0.sz,
          pyFloatOfString a0.px, pyFloatOfString a0.sz with
      | some bpx, some bs, some apx, some asz =>
        some (pair,
          { bid := some bpx, ask := some apx, bid_sz := some bs,
            ask_sz := some asz, bid_str := some b0.px, ask_str := some a0.px,
            ts_ms := now })
      | _, _, _, _ => none
    | _, _ => none

/-- Association-list removal, mirroring `dict.pop(k, None)`. -/
def aremove {α β : Type} [DecidableEq α] (k : α) : List (α × β) → List (α × β)
  | [] => []
  | (k', v) :: rest => if k' = k then rest else (k', v) :: aremove k rest

/-- A Kraken book level: price and volume strings as sent by the venue. -/
structure KLvl where
  px : String
  vol : String
  deriving DecidableEq, Repr

/-- A Kraken per-pair book: float-keyed price → volume maps. -/
structure KBook where
  bids : List (ℚ × ℚ)
  asks : List (ℚ × ℚ)
  deriving DecidableEq, Repr

/-- Parse one Kraken level; `none` models a `float()` failure (the level is
skipped). -/
def krakenParseLvl (l : KLvl) : Option (ℚ × ℚ) :=
  match pyFloatOfString l.px, pyFloatOfString l.vol with
  | some p, some v => some (p, v)
  | _, _ => none

/-- Snapshot side construction of `KrakenMarket._consume`: keep only
strictly positive volumes. -/
def krakenBuildSide (lvls : List KLvl) : List (ℚ × ℚ) :=
  lvls.foldl
    (fun m l =>
      match krakenParseLvl l with
      | none => m
      | some pv => if pv.2 > 0 then aset pv.1 pv.2 m else m)
    []

/-- Delta application of `KrakenMarket._consume`: non-positive volume
removes the level, otherwise insert/replace. -/
def krakenApplySide (m : List (ℚ × ℚ)) (lvls : List KLvl) : List (ℚ × ℚ) :=
  lvls.foldl
    (fun m l =>
      match krakenParseLvl l with
      | none => m
      | some pv => if pv.2 ≤ 0 then aremove pv.1 m else aset pv.1 pv.2 m)
    m

/-- Maximum key of a price map (`max(bids.keys())`), if any. -/
def maxKey (m : List (ℚ × ℚ)) : Option ℚ :=
  m.foldl (fun acc p => match acc with | none => some p.1 | some x => some (max x p.1)) none

/-- Minimum key of a price map (`min(asks.keys())`), if any. -/
def minKey (m : List (ℚ × ℚ)) : Option ℚ :=
  m.foldl (fun acc p => match acc with | none => some p.1 | some x => some (min x p.1)) none

/-- Round half to even of a nonnegative rational to an integer, the rounding
of Python fixed-point float formatting. -/
def roundHalfEvenNat (q : ℚ) : ℕ :=
  let f := q.floor.toNat
  let r := q - q.floor
  if r < 1 / 2 then f
  else if 1 / 2 < r then f + 1
  else if f % 2 = 0 then f else f + 1

/-- Python `f"{x:.mf}"`: fixed-point rendering with `m` fractional digits,
half-even rounding. -/
def pyFormatF (x : ℚ) (m : ℕ) : String :=
  ⟨fixedRender (decide (x < 0)) (roundHalfEvenNat (|x| * 10 ^ m)) m⟩

/-- A Kraken book message payload; `snapBids`/`snapAsks` model the `"bs"`
and `"as"` snapshot keys, `updBids`/`updAsks` the `"b"` and `"a"` delta
keys. -/
structure KPayload where
  snapBids : Option (List KLvl)
  snapAsks : Option (List KLvl)
  updBids : Option (List KLvl)
  updAsks : Option (List KLvl)
  deriving DecidableEq, Repr

/-- Top-of-book derivation and publication of `KrakenMarket._consume`
(lines 165-185): publish unless both sides are empty.  The published
strings are `f"{best:.12f}"` re-renderings of the float keys. -/
def krakenPublish (bk : KBook) (now : ℤ) : Option Quote :=
  let bb := maxKey bk.bids
  let ba := minKey bk.asks
  if bb = none ∧ ba = none then none
  else
    some
      { bid := bb, ask := ba,
        bid_sz := bb.bind (fun q => alookup q bk.bids),
        ask_sz := ba.bind (fun q => alookup q bk.asks),
        bid_str := bb.map (fun q => pyFormatF q 12),
        ask_str := ba.map (fun q => pyFormatF q 12),
        ts_ms := now }

/-- Per-message book maintenance and publication of
`KrakenMarket._consume` (lines 137-185): rebuild on snapshot, apply deltas,
then derive and publish via `krakenPublish`. -/
def krakenStep (bk : KBook) (p : KPayload) (now : ℤ) : KBook × Option Quote :=
  let bk1 :=
    if p.snapBids.isSome || p.snapAsks.isSome then
      { bids := krakenBuildSide (p.snapBids.getD []),
        asks := krakenBuildSide (p.snapAsks.getD []) }
    else bk
  let bk2 :=
    if p.updBids.isSome || p.updAsks.isSome then
      { bids := krakenApplySide bk1.bids (p.updBids.getD []),
        asks := krakenApplySide bk1.asks (p.updAsks.getD []) }
    else bk1
  (bk2, krakenPublish bk2 now)

/-- Plain decimal rendering of a finite decimal, the idealization of
`str(float(...))` for the magnitudes order books carry. -/
def renderDecNum (d : DecNum) : String :=
  if 0 ≤ d.exp then ⟨fixedRender d.neg (d.coeff * 10 ^ d.exp.toNat) 0⟩
  else ⟨fixedRender d.neg d.coeff (-d.exp).toNat⟩

/-- An HTX depth level: the JSON number literals for price and size. -/
structure HLvl where
  px : DecNum
  sz : DecNum
  deriving DecidableEq, Repr

/-- An HTX `step0` depth frame after decompression, JSON decoding and
channel extraction. -/
structure HFrame where
  sym : String
  bids : List HLvl
  asks : List HLvl
  deriving DecidableEq, Repr

/-- `_sym_htx`: `pair.replace("/", "").lower()`. -/
def symHtx (p : String) : String :=
  ⟨(p.toList.filter (fun c => c ≠ '/')).map Char.toLower⟩

/-- Per-frame processing of `HtxMarket._consume` (lines 117-152): route the
symbol, take the top of each side if present, and publish unless both sides
are absent; `ts_ms` is the local time of acceptance. -/
def htxStep (batch : List String) (f : HFrame) (now : ℤ) :
    Option (String × Quote) :=
  match batch.find? (fun p => symHtx p == f.sym) with
  | none => none
  | some pair =>
    let bid0 := f.bids.head?
    let ask0 := f.asks.head?
    if bid0 = none ∧ ask0 = none then none
    else
      some (pair,
        { bid := bid0.map (fun l => decValue l.px),
          ask := ask0.map (fun l => decValue l.px),
          bid_sz := bid0.map (fun l => decValue l.sz),
          ask_sz := ask0.map (fun l => decValue l.sz),
          bid_str := bid0.map (fun l => renderDecNum l.px),
          ask_str := ask0.map (fun l => renderDecNum l.px),
          ts_ms := now })

/-- The implicit invariant of `arb_states`: `in_window` holds exactly when
`since_ms` is present. -/
def StateInv (m : StateMap) : Prop :=
  ∀ k st, alookup k m = some st → (st.in_window = true ↔ st.since_ms.isSome = true)

/-- Fold a sequence of observations `(profit_frac, now_ms)` of a single key
through `update_hysteresis`. -/
def runObs (m : StateMap) (key : ArbKey) (obs : List (ℚ × ℤ)) : StateMap :=
  obs.foldl (fun m o => (updateHysteresis m key o.1 o.2).1) m

theorem alookup_aset_self {α β : Type} [DecidableEq α] (k : α) (v : β)
    (m : List (α × β)) : alookup k (aset k v m) = some v := by
  induction m with
  | nil => simp [aset, alookup]
  | cons hd tl ih =>
    obtain ⟨k', v'⟩ := hd
    by_cases h : k' = k
    · subst h
      simp [aset, alookup]
    · simp [aset, alookup, h, ih]

theorem alookup_aset_ne {α β : Type} [DecidableEq α] {k k' : α} (v : β)
    (m : List (α × β)) (hne : k' ≠ k) :
    alookup k' (aset k v m) = alookup k' m := by
  induction m with
  | nil =>
    simp [aset, alookup]
    intro h
    exact absurd h.symm hne
  | cons hd tl ih =>
    obtain ⟨k0, v0⟩ := hd
    by_cases h : k0 = k
    · subst h
      have : k0 ≠ k' := fun h => hne h.symm
      simp [aset, alookup, this]
    · simp only [aset, if_neg h, alookup]
      by_cases h0 : k0 = k'
      · simp [h0]
      · simp [h0, ih]

theorem effState_updateHysteresis_same (m : StateMap) (key : ArbKey)
    (pf : ℚ) (t : ℤ) :
    effState (updateHysteresis m key pf t).1 key =
      (if !(effState m key).in_window then
        if pf ≥ THRESH_ENTER then ⟨true, some t⟩ else effState m key
      else
        if pf < THRESH_EXIT then ⟨false, none⟩ else effState m key) := by
  simp only [updateHysteresis, effState, alookup_aset_self]
  rfl

theorem effState_updateHysteresis_other (m : StateMap) (key k' : ArbKey)
    (pf : ℚ) (t : ℤ) (hne : k' ≠ key) :
    effState (updateHysteresis m key pf t).1 k' = effState m k' := by
  simp only [updateHysteresis, effState]
  rw [alookup_aset_ne _ _ hne]

/-- C1.  Hysteresis transition function: out of window, an observation with
`profit_frac ≥ THRESH_ENTER` enters the window and stamps `since_ms` with
the observation time; in window, an observation with
`profit_frac < THRESH_EXIT` exits and clears `since_ms`; every other
observation — in particular any `profit_frac ∈ [THRESH_EXIT, THRESH_ENTER)`
while in window — leaves the state unchanged, and keys other than the
observed one are never transitioned. -/
theorem C1_hysteresis_transition (m : StateMap) (key : ArbKey) (pf : ℚ) (t : ℤ) :
    ((effState m key).in_window = false → THRESH_ENTER ≤ pf →
      effState (updateHysteresis m key pf t).1 key =
        { in_window := true, since_ms := some t }) ∧
    ((effState m key).in_window = true → pf < THRESH_EXIT →
      effState (updateHysteresis m key pf t).1 key =
        { in_window := false, since_ms := none }) ∧
    ((effState m key).in_window = false → pf < THRESH_ENTER →
      effState (updateHysteresis m key pf t).1 key = effState m key) ∧
    ((effState m key).in_window = true → THRESH_EXIT ≤ pf →
      effState (updateHysteresis m key pf t).1 key = effState m key) ∧
    (∀ k', k' ≠ key →
      effState (updateHysteresis m key pf t).1 k' = effState m k') := by
  refine ⟨?_, ?_, ?_, ?_, fun k' h => effState_updateHysteresis_other m key k' pf t h⟩
  · intro hw hpf
    rw [effState_updateHysteresis_same, hw]
    simp [ge_iff_le, hpf]
  · intro hw hpf
    rw [effState_updateHysteresis_same, hw]
    simp [hpf]
  · intro hw hpf
    rw [effState_updateHysteresis_same, hw]
    simp [ge_iff_le, not_le.mpr hpf]
  · intro hw hpf
    rw [effState_updateHysteresis_same, hw]
    simp [not_lt.mpr hpf]

theorem C1_hysteresis_transition_witness :
    (effState [] ("X/Y", "A", "B")).in_window = false ∧
      THRESH_ENTER ≤ (1 : ℚ) / 100 ∧
      effState (updateHysteresis [] ("X/Y", "A", "B") (1 / 100) 7).1
          ("X/Y", "A", "B") =
        { in_window := true, since_ms := some 7 } ∧
      effState (updateHysteresis [] ("X/Y", "A", "B") (1 / 100) 7).1
          ("Q/R", "A", "B") =
        effState [] ("Q/R", "A", "B") :=
  ⟨by decide, by norm_num [THRESH_ENTER],
    (C1_hysteresis_transition [] ("X/Y", "A", "B") (1 / 100) 7).1 (by decide)
      (by norm_num [THRESH_ENTER]),
    (C1_hysteresis_transition [] ("X/Y", "A", "B") (1 / 100) 7).2.2.2.2
      ("Q/R", "A", "B") (by decide)⟩

theorem lookup_updateHysteresis_same (m : StateMap) (key : ArbKey)
    (pf : ℚ) (t : ℤ) :
    alookup key (updateHysteresis m key pf t).1 =
      some (if !(effState m key).in_window then
        if pf ≥ THRESH_ENTER then ⟨true, some t⟩ else effState m key
      else
        if pf < THRESH_EXIT then ⟨false, none⟩ else effState m key) := by
  simp only [updateHysteresis, alookup_aset_self]

theorem effState_inv (m : StateMap) (key : ArbKey) (hm : StateInv m) :
    (effState m key).in_window = true ↔ (effState m key).since_ms.isSome = true := by
  unfold effState
  cases hl : alookup key m with
  | none => simp
  | some st0 => simpa using hm key st0 hl

/-- C10.  Implicit hysteresis state invariant: `in_window` is true exactly
when `since_ms` is present; it holds of the empty table (hence of every
lazily created default state) and is preserved by every call to
`update_hysteresis`. -/
theorem C10_state_invariant :
    StateInv [] ∧
    (∀ m key pf t, StateInv m → StateInv (updateHysteresis m key pf t).1) := by
  constructor
  · intro k st h
    simp [alookup] at h
  · intro m key pf t hm k st h
    by_cases hk : k = key
    · subst hk
      rw [lookup_updateHysteresis_same] at h
      have hs0 := effState_inv m k hm
      split_ifs at h with h1 h2 h3 <;> cases h <;> simp_all
    · rw [show (updateHysteresis m key pf t).1 = aset key _ m from rfl,
        alookup_aset_ne _ _ hk] at h
      exact hm k st h

theorem C10_state_invariant_witness :
    StateInv (updateHysteresis [] ("X/Y", "A", "B") (1 / 100) 5).1 :=
  C10_state_invariant.2 [] ("X/Y", "A", "B") (1 / 100) 5 C10_state_invariant.1

/-- C3.  The long classification: `is_long` is true iff the key is stored,
in window, has `since_ms` set and at least `LONG_SECS * 1000` milliseconds
have elapsed; staying above `THRESH_EXIT` preserves the entry stamp (so the
clock runs over the whole continuous in-window interval), an exit clears
`since_ms` making `is_long` false at every time, and a re-entry at `t`
restarts the clock from `t`. -/
theorem C3_long_classification :
    (∀ m key t, isLong m key t = true ↔
      ∃ st, alookup key m = some st ∧ st.in_window = true ∧
        ∃ s, st.since_ms = some s ∧ LONG_SECS * 1000 ≤ t - s) ∧
    (∀ m key s obs, effState m key = { in_window := true, since_ms := some s } →
      (∀ o ∈ obs, THRESH_EXIT ≤ o.1) →
      effState (runObs m key obs) key = { in_window := true, since_ms := some s }) ∧
    (∀ m key s t, effState m key = { in_window := true, since_ms := some s } →
      (isLong m key t = true ↔ LONG_SECS * 1000 ≤ t - s)) ∧
    (∀ m key pf t, (effState m key).in_window = true → pf < THRESH_EXIT →
      ∀ u, isLong (updateHysteresis m key pf t).1 key u = false) ∧
    (∀ m key pf t, (effState m key).in_window = false → THRESH_ENTER ≤ pf →
      ∀ u, (isLong (updateHysteresis m key pf t).1 key u = true ↔
        LONG_SECS * 1000 ≤ u - t)) := by
  have hstored : ∀ (m : StateMap) key s,
      effState m key = { in_window := true, since_ms := some s } →
      alookup key m = some { in_window := true, since_ms := some s } := by
    intro m key s h
    unfold effState at h
    cases hl : alookup key m with
    | none => rw [hl] at h; simp at h
    | some st0 => rw [hl] at h; simp at h; rw [h]
  refine ⟨?_, ?_, ?_, ?_, ?_⟩
  · intro m key t
    cases hl : alookup key m with
    | none => simp [isLong, hl]
    | some st =>
      obtain ⟨iw, sm⟩ := st
      cases iw <;> cases sm <;> simp [isLong, hl, ge_iff_le]
  · intro m key s obs
    induction obs generalizing m with
    | nil => intro h _; exact h
    | cons o rest ih =>
      intro h hobs
      have step : effState (updateHysteresis m key o.1 o.2).1 key =
          { in_window := true, since_ms := some s } := by
        rw [effState_updateHysteresis_same, h]
        have : ¬ o.1 < THRESH_EXIT := not_lt.mpr (hobs o (List.mem_cons_self o rest))
        simp [this]
      have := ih (updateHysteresis m key o.1 o.2).1 step
        (fun o ho => hobs o (List.mem_cons_of_mem _ ho))
      simpa [runObs, List.foldl_cons] using this
  · intro m key s t h
    have hl := hstored m key s h
    simp [isLong, hl, ge_iff_le]
  · intro m key pf t hw hpf u
    rw [isLong, lookup_updateHysteresis_same, hw]
    simp [hpf]
  · intro m key pf t hw hpf u
    rw [isLong, lookup_updateHysteresis_same, hw]
    simp [ge_iff_le, hpf]

theorem C3_long_classification_witness :
    isLong (updateHysteresis [] ("X/Y", "A", "B") (1 / 100) 0).1
      ("X/Y", "A", "B") 180000 = true :=
  (C3_long_classification.2.2.2.2 [] ("X/Y", "A", "B") (1 / 100) 0 (by decide)
    (by norm_num [THRESH_ENTER]) 180000).mpr (by decide)

theorem foldlM_except_ops {α : Type} (P : Op → Prop)
    (f : (List Op × StateMap) → α → Except Unit (List Op × StateMap))
    (hf : ∀ acc x r, f acc x = Except.ok r → ∀ op ∈ r.1, op ∈ acc.1 ∨ P op) :
    ∀ (l : List α) (acc r : List Op × StateMap),
      List.foldlM f acc l = Except.ok r → ∀ op ∈ r.1, op ∈ acc.1 ∨ P op := by
  intro l
  induction l with
  | nil =>
    intro acc r h
    simp only [List.foldlM_nil, pure, Except.pure, Except.ok.injEq] at h
    subst h
    exact fun op hop => Or.inl hop
  | cons x xs ih =>
    intro acc r h
    rw [List.foldlM_cons] at h
    cases hfx : f acc x with
    | error e =>
      rw [hfx] at h
      simp [Bind.bind, Except.bind] at h
    | ok a =>
      rw [hfx] at h
      simp only [Bind.bind, Except.bind] at h
      intro op hop
      rcases ih a r h op hop with h1 | h1
      · exact hf acc x a hfx op h1
      · exact Or.inr h1

theorem candidateStep_ops (nms : ℤ) (pair m_buy : String) (q_buy : Quote)
    (acc : List Op × StateMap) (ms : String × Quote) (r : List Op × StateMap)
    (h : candidateStep nms pair m_buy q_buy acc ms = Except.ok r) :
    ∀ op ∈ r.1, op ∈ acc.1 ∨ op.profit_pct ≤ MAX_PROFIT_PCT := by
  intro op hop
  simp only [candidateStep] at h
  split_ifs at h with h1 h2 h3 h4 <;>
    first
    | exact Except.noConfusion h
    | (cases h; exact Or.inl hop)
    | (cases h
       rcases List.mem_append.mp hop with hmem | hmem
       · exact Or.inl hmem
       · rcases List.mem_singleton.mp hmem with rfl
         exact Or.inr (not_lt.mp h3))

theorem buyStep_ops (nms : ℤ) (pair : String) (avail : List (String × Quote))
    (acc : List Op × StateMap) (mb : String × Quote) (r : List Op × StateMap)
    (h : buyStep nms pair avail acc mb = Except.ok r) :
    ∀ op ∈ r.1, op ∈ acc.1 ∨ op.profit_pct ≤ MAX_PROFIT_PCT := by
  simp only [buyStep] at h
  split_ifs at h with h1
  · cases h
    exact fun op hop => Or.inl hop
  · exact foldlM_except_ops _ _ (candidateStep_ops nms pair mb.1 mb.2) avail acc r h

theorem scanPair_ops (markets : List String) (prices : PriceTable) (nms : ℤ)
    (acc : List Op × StateMap) (pair : String) (r : List Op × StateMap)
    (h : scanPair markets prices nms acc pair = Except.ok r) :
    ∀ op ∈ r.1, op ∈ acc.1 ∨ op.profit_pct ≤ MAX_PROFIT_PCT := by
  simp only [scanPair] at h
  split_ifs at h with h1
  · cases h
    exact fun op hop => Or.inl hop
  · exact foldlM_except_ops _ _
      (buyStep_ops nms pair (availFor markets prices pair)) _ acc r h

/-- C2.  Sanity cap: a candidate whose `profit_pct` exceeds
`MAX_PROFIT_PCT` is discarded before the hysteresis transition — the inner
loop body returns its accumulator (opportunity list and hysteresis map)
unchanged — and no opportunity with `profit_pct > MAX_PROFIT_PCT` ever
appears in the output of `compute_arbitrages`. -/
theorem C2_sanity_cap :
    (∀ (nms : ℤ) (pair m_buy : String) (q_buy : Quote)
        (acc : List Op × StateMap) (ms : String × Quote),
      q_buy.ask.getD 0 ≠ 0 →
      (ms.2.bid.getD 0 - q_buy.ask.getD 0) / q_buy.ask.getD 0 * 100 >
        MAX_PROFIT_PCT →
      candidateStep nms pair m_buy q_buy acc ms = Except.ok acc) ∧
    (∀ (markets : List String) (prices : PriceTable) (st0 : StateMap)
        (nms : ℤ) (ops : List Op) (st' : StateMap),
      computeArbitrages markets prices st0 nms = Except.ok (ops, st') →
      ∀ op ∈ ops, op.profit_pct ≤ MAX_PROFIT_PCT) := by
  constructor
  · intro nms pair m_buy q_buy acc ms ha hpct
    simp only [candidateStep]
    by_cases h1 : ms.1 = m_buy ∨ ms.2.bid = none ∨ ms.2.bid_sz = none
    · rw [if_pos h1]
    · rw [if_neg h1, if_neg ha, if_pos hpct]
  · intro markets prices st0 nms ops st' h op hop
    simp only [computeArbitrages] at h
    cases hf : List.foldlM (scanPair markets prices nms)
        (([], st0) : List Op × StateMap) (pairsAll markets prices) with
    | error e =>
      rw [hf] at h
      exact Except.noConfusion h
    | ok r0 =>
      rw [hf] at h
      cases h
      have hmem : op ∈ r0.1 := (List.mem_insertionSort opRel).mp hop
      rcases foldlM_except_ops _ _ (scanPair_ops markets prices nms) _ _ _ hf op hmem with
        h1 | h1
      · simp at h1
      · exact h1

theorem C2_sanity_cap_witness :
    ({ ask := some 1, ask_sz := some 1, bid := some 1, bid_sz := some 1 } :
        Quote).ask.getD 0 ≠ 0 ∧
    candidateStep 0 "X/Y" "A"
        { ask := some 1, ask_sz := some 1, bid := some 1, bid_sz := some 1 }
        ([], [])
        ("B", { bid := some 2, bid_sz := some 1 }) = Except.ok ([], []) :=
  ⟨by decide,
    C2_sanity_cap.1 0 "X/Y" "A"
      { ask := some 1, ask_sz := some 1, bid := some 1, bid_sz := some 1 }
      ([], []) ("B", { bid := some 2, bid_sz := some 1 })
      (by decide) (by norm_num [MAX_PROFIT_PCT])⟩

/-- C9.  Engine totality fails: with a stored quote whose ask price is `0`
(both sides present, sizes present) and a second venue quoting both sides,
`compute_arbitrages` performs the float division
`(Q_sell.bid - Q_buy.ask) / Q_buy.ask` with a zero divisor and raises
`ZeroDivisionError` (modelled as `Except.error ()`), contradicting the
spec's "nothing in the core aborts the process". -/
theorem C9_engine_zero_division :
    computeArbitrages ["A", "B"]
      [("A", [("X/Y",
        { bid := some 1, ask := some 0, bid_sz := some 1, ask_sz := some 1,
          ts_ms := 5 })]),
       ("B", [("X/Y",
        { bid := some 2, ask := some 3, bid_sz := some 1, ask_sz := some 1,
          ts_ms := 5 })])]
      [] 10 = Except.error () := by
  rfl

theorem ageSec_stale_iff (nms ts : ℤ) (hclock : (600000 : ℤ) ≤ nms) :
    ((STALE_SECS : ℚ) : WithTop ℚ) ≤ ageSec nms ts ↔ 600000 ≤ nms - ts := by
  rw [ageSec, STALE_SECS]
  split_ifs with h
  · simp only [le_top, true_iff]
    omega
  · rw [WithTop.coe_le_coe, le_max_iff]
    have h1000 : (0 : ℚ) < 1000 := by norm_num
    rw [le_div_iff₀ h1000]
    constructor
    · intro hc
      rcases hc with hc | hc
      · norm_num at hc
      · have : (600000 : ℚ) ≤ (nms : ℚ) - (ts : ℚ) := by linarith
        exact_mod_cast this
    · intro hc
      right
      have : (600000 : ℚ) ≤ (nms : ℚ) - (ts : ℚ) := by exact_mod_cast hc
      linarith

/-- C4.  Stale accounting: under any realistic clock (`now_ms` at least
`STALE_SECS * 1000`), a stored quote gets a row in `list_stale` exactly when
`now_ms - ts_ms ≥ STALE_SECS * 1000 = 600000` — in particular a quote
updated just now is never listed — and the returned rows are sorted by age
descending, then venue, then pair. -/
theorem C4_stale_accounting (prices : PriceTable) (nms : ℤ)
    (hclock : (600000 : ℤ) ≤ nms) :
    (∀ mkt pair a q, ((mkt, pair, a, q) ∈ listStale prices nms) ↔
      (∃ ps, (mkt, ps) ∈ prices ∧ (pair, q) ∈ ps ∧ a = ageSec nms q.ts_ms ∧
        600000 ≤ nms - q.ts_ms)) ∧
    (listStale prices nms).Sorted staleRel := by
  constructor
  · intro mkt pair a q
    rw [listStale]
    simp only [List.mem_insertionSort, List.mem_flatMap, List.mem_filterMap]
    constructor
    · rintro ⟨⟨mkt0, ps⟩, hmp, ⟨pair0, q0⟩, hpq, hsome⟩
      by_cases hc : ((STALE_SECS : ℚ) : WithTop ℚ) ≤ ageSec nms q0.ts_ms
      · rw [if_pos hc] at hsome
        simp only [Option.some.injEq, Prod.mk.injEq] at hsome
        obtain ⟨rfl, rfl, ha, rfl⟩ := hsome
        exact ⟨ps, hmp, hpq, ha.symm, (ageSec_stale_iff nms _ hclock).mp hc⟩
      · rw [if_neg hc] at hsome
        exact Option.noConfusion hsome
    · rintro ⟨ps, hmp, hpq, ha, hcond⟩
      refine ⟨(mkt, ps), hmp, (pair, q), hpq, ?_⟩
      rw [if_pos ((ageSec_stale_iff nms q.ts_ms hclock).mpr hcond), ha]
  · rw [listStale]
    exact List.sorted_insertionSort staleRel _

theorem C4_stale_accounting_witness :
    (600000 : ℤ) ≤ 1000000 ∧
    (("A", "X/Y", ageSec 1000000 5, ({ ts_ms := 5 } : Quote)) ∈
      listStale [("A", [("X/Y", { ts_ms := 5 })])] 1000000) :=
  ⟨by decide,
    ((C4_stale_accounting [("A", [("X/Y", { ts_ms := 5 })])] 1000000
        (by decide)).1 "A" "X/Y" (ageSec 1000000 5) { ts_ms := 5 }).mpr
      ⟨[("X/Y", { ts_ms := 5 })], by decide, by decide, rfl, by decide⟩⟩

/-- C6, counterexample.  The string `"NaN"` does not parse as a FINITE
decimal, yet `format("NaN", 5.0)` is `"None"` and not the rendering `"5"`
of the finite float — the float fallback only fires when `Decimal(s)`
raises, not when it yields a non-finite value. -/
theorem C6_input_preference_counterexample :
    prettyNumber (some "NaN") (some (PyFloat.finite ⟨false, 5, 0⟩)) 12 = "None" ∧
    prettyNumber none (some (PyFloat.finite ⟨false, 5, 0⟩)) 12 = "5" ∧
    ("None" : String) ≠ "5" := by
  refine ⟨?_, ?_, by decide⟩ <;> decide

/-- C6, amended.  `format` prefers the string whenever it parses as ANY
`Decimal`: a finite parse is rendered with the float ignored, while a
non-finite parse (`NaN`, `Infinity`) yields `"None"` regardless of the
float.  The float is consulted only when the string is absent or fails to
parse; it is rendered if finite, and `format(None, NaN)`,
`format(None, Inf)`, `format(None, -Inf)` and `format(None, None)` are all
`"None"`. -/
theorem C6_input_preference_amended :
    prettyNumber none (some PyFloat.nan) 12 = "None" ∧
    prettyNumber none (some PyFloat.inf) 12 = "None" ∧
    prettyNumber none (some PyFloat.ninf) 12 = "None" ∧
    prettyNumber none none 12 = "None" ∧
    (∀ s f, parseDecimal s = some PyDec.nan →
      prettyNumber (some s) f 12 = "None") ∧
    (∀ s f b, parseDecimal s = some (PyDec.inf b) →
      prettyNumber (some s) f 12 = "None") ∧
    (∀ s f d, parseDecimal s = some (PyDec.finite d) →
      prettyNumber (some s) f 12 = renderDec (PyDec.finite d) 12) ∧
    (∀ s f, parseDecimal s = none →
      prettyNumber (some s) f 12 = prettyNumber none f 12) := by
  refine ⟨by decide, by decide, by decide, by decide, ?_, ?_, ?_, ?_⟩
  · intro s f h
    simp [prettyNumber, h, renderDec]
  · intro s f b h
    simp [prettyNumber, h, renderDec]
  · intro s f d h
    simp [prettyNumber, h]
  · intro s f h
    simp [prettyNumber, h]

theorem C6_input_preference_amended_witness :
    parseDecimal "Infinity" = some (PyDec.inf false) ∧
    prettyNumber (some "Infinity") (some (PyFloat.finite ⟨false, 5, 0⟩)) 12 =
      "None" ∧
    parseDecimal "x" = none ∧
    prettyNumber (some "x") (some (PyFloat.finite ⟨false, 5, 0⟩)) 12 =
      prettyNumber none (some (PyFloat.finite ⟨false, 5, 0⟩)) 12 :=
  ⟨by decide,
    C6_input_preference_amended.2.2.2.2.2.1 "Infinity"
      (some (PyFloat.finite ⟨false, 5, 0⟩)) false (by decide),
    by decide,
    C6_input_preference_amended.2.2.2.2.2.2.2 "x"
      (some (PyFloat.finite ⟨false, 5, 0⟩)) (by decide)⟩

theorem foldl_best_isSome (g : ℚ → ℚ → ℚ) (l : List (ℚ × ℚ)) (x : ℚ) :
    (l.foldl
      (fun acc p => match acc with | none => some p.1 | some y => some (g y p.1))
      (some x)).isSome = true := by
  induction l generalizing x with
  | nil => rfl
  | cons p l ih => simpa [List.foldl_cons] using ih (g x p.1)

theorem maxKey_eq_none_iff (m : List (ℚ × ℚ)) : maxKey m = none ↔ m = [] := by
  cases m with
  | nil => simp [maxKey]
  | cons p l =>
    simp only [maxKey, List.foldl_cons]
    constructor
    · intro h
      have := foldl_best_isSome (fun y z => max y z) l p.1
      rw [h] at this
      exact absurd this (by simp)
    · intro h
      exact absurd h (by simp)

theorem minKey_eq_none_iff (m : List (ℚ × ℚ)) : minKey m = none ↔ m = [] := by
  cases m with
  | nil => simp [minKey]
  | cons p l =>
    simp only [minKey, List.foldl_cons]
    constructor
    · intro h
      have := foldl_best_isSome (fun y z => min y z) l p.1
      rw [h] at this
      exact absurd this (by simp)
    · intro h
      exact absurd h (by simp)

theorem krakenPublish_pub_iff (bk : KBook) (now : ℤ) :
    (krakenPublish bk now ≠ none ↔ (bk.bids ≠ [] ∨ bk.asks ≠ [])) ∧
    (∀ q, krakenPublish bk now = some q → q.ts_ms = now ∧
      q.bid_str = (maxKey bk.bids).map (fun x => pyFormatF x 12) ∧
      q.ask_str = (minKey bk.asks).map (fun x => pyFormatF x 12)) := by
  constructor
  · rw [krakenPublish]
    by_cases hc : maxKey bk.bids = none ∧ minKey bk.asks = none
    · rw [if_pos hc]
      simp only [ne_eq, not_true_eq_false, false_iff]
      push_neg
      exact ⟨(maxKey_eq_none_iff bk.bids).mp hc.1, (minKey_eq_none_iff bk.asks).mp hc.2⟩
    · rw [if_neg hc]
      simp only [ne_eq, reduceCtorEq, not_false_eq_true, true_iff]
      rcases not_and_or.mp hc with h | h
      · exact Or.inl (fun he => h ((maxKey_eq_none_iff bk.bids).mpr he))
      · exact Or.inr (fun he => h ((minKey_eq_none_iff bk.asks).mpr he))
  · intro q h
    rw [krakenPublish] at h
    split_ifs at h with hc <;>
      first
      | exact Option.noConfusion h
      | (cases h; exact ⟨rfl, rfl, rfl⟩)

/-- C7, counterexample.  A mapped Binance frame whose book view has a best
bid but an empty ask side is not published: `BinanceMarket._consume` skips
any frame with an empty side (`if not bids or not asks: continue`), while
the claim requires a publication whenever at least one side has a best
level. -/
theorem C7_publication_counterexample :
    binanceStep ["BTC/USDT"] ⟨"BTCUSDT", [⟨"1.0", "2.0"⟩], []⟩ 0 = none ∧
    (["BTC/USDT"].find? fun p => pairToBinance p == "BTCUSDT") =
      some "BTC/USDT" ∧
    ([⟨"1.0", "2.0"⟩] : List BLvl) ≠ [] := by
  refine ⟨by decide, by decide, by decide⟩

/-- C7, amended.  Kraken and HTX publish a fresh Quote whenever at least
one side of the (post-update) book has a best level, and Binance publishes
only when both sides of the frame are nonempty (and all four numbers
parse); in every case the published `ts_ms` is the local time of
acceptance, not a venue timestamp. -/
theorem C7_publication_amended :
    (∀ bk p now, (krakenStep bk p now).2 =
      krakenPublish (krakenStep bk p now).1 now) ∧
    (∀ bk now, (krakenPublish bk now ≠ none ↔
        (bk.bids ≠ [] ∨ bk.asks ≠ [])) ∧
      (∀ q, krakenPublish bk now = some q → q.ts_ms = now)) ∧
    (∀ batch f now pair, batch.find? (fun p => symHtx p == f.sym) = some pair →
      ((htxStep batch f now ≠ none) ↔ (f.bids ≠ [] ∨ f.asks ≠ [])) ∧
      (∀ pr q, htxStep batch f now = some (pr, q) → q.ts_ms = now)) ∧
    (∀ batch f now pair q, binanceStep batch f now = some (pair, q) →
      f.bids ≠ [] ∧ f.asks ≠ [] ∧ q.ts_ms = now) := by
  refine ⟨?_, ?_, ?_, ?_⟩
  · intro bk p now
    rfl
  · intro bk now
    exact ⟨(krakenPublish_pub_iff bk now).1,
      fun q h => ((krakenPublish_pub_iff bk now).2 q h).1⟩
  · intro batch f now pair hfind
    have hstep : htxStep batch f now =
        (if f.bids.head? = none ∧ f.asks.head? = none then none
        else
          some (pair,
            { bid := f.bids.head?.map (fun l => decValue l.px),
              ask := f.asks.head?.map (fun l => decValue l.px),
              bid_sz := f.bids.head?.map (fun l => decValue l.sz),
              ask_sz := f.asks.head?.map (fun l => decValue l.sz),
              bid_str := f.bids.head?.map (fun l => renderDecNum l.px),
              ask_str := f.asks.head?.map (fun l => renderDecNum l.px),
              ts_ms := now })) := by
      rw [htxStep, hfind]
    constructor
    · rw [hstep]
      by_cases hc : f.bids.head? = none ∧ f.asks.head? = none
      · rw [if_pos hc]
        simp only [ne_eq, not_true_eq_false, false_iff]
        push_neg
        exact ⟨List.head?_eq_none_iff.mp hc.1, List.head?_eq_none_iff.mp hc.2⟩
      · rw [if_neg hc]
        simp only [ne_eq, reduceCtorEq, not_false_eq_true, true_iff]
        rcases not_and_or.mp hc with h | h
        · exact Or.inl (fun he => h (List.head?_eq_none_iff.mpr he))
        · exact Or.inr (fun he => h (List.head?_eq_none_iff.mpr he))
    · intro pr q h
      rw [hstep] at h
      split_ifs at h with hc <;>
        first
        | exact Option.noConfusion h
        | (cases h; rfl)
  · intro batch f now pair q h
    obtain ⟨sym, bids, asks⟩ := f
    rw [binanceStep] at h
    cases hfind : batch.find? (fun p => pairToBinance p == sym) with
    | none => rw [hfind] at h; exact Option.noConfusion h
    | some pr =>
      rw [hfind] at h
      simp only at h
      cases bids with
      | nil => exact Option.noConfusion h
      | cons b0 bs =>
        cases asks with
        | nil => exact Option.noConfusion h
        | cons a0 as1 =>
          refine ⟨by simp, by simp, ?_⟩
          cases h1 : pyFloatOfString b0.px <;> simp only [h1] at h
          · exact Option.noConfusion h
          cases h2 : pyFloatOfString b0.sz <;> simp only [h2] at h
          · exact Option.noConfusion h
          cases h3 : pyFloatOfString a0.px <;> simp only [h3] at h
          · exact Option.noConfusion h
          cases h4 : pyFloatOfString a0.sz <;> simp only [h4] at h
          · exact Option.noConfusion h
          cases h
          rfl

theorem C7_publication_amended_witness :
    (["BTC/USDT"].find? fun p => symHtx p == "btcusdt") = some "BTC/USDT" ∧
    htxStep ["BTC/USDT"]
      ⟨"btcusdt", [⟨⟨false, 1005, -1⟩, ⟨false, 2, 0⟩⟩], []⟩ 3 ≠ none :=
  ⟨by decide,
    ((C7_publication_amended.2.2.1 ["BTC/USDT"]
        ⟨"btcusdt", [⟨⟨false, 1005, -1⟩, ⟨false, 2, 0⟩⟩], []⟩ 3 "BTC/USDT"
        (by decide)).1).mpr (Or.inl (by decide))⟩

/-- C8, counterexample.  Kraken receives the venue price string `"100.5"`
in a book snapshot but publishes `bid_str = "100.500000000000"`, the
`f"{best:.12f}"` re-rendering of the parsed float — not the exact
venue-supplied string. -/
theorem C8_string_preservation_counterexample :
    ((krakenStep ⟨[], []⟩ ⟨some [⟨"100.5", "2"⟩], some [], none, none⟩ 7).2.map
      Quote.bid_str) = some (some "100.500000000000") ∧
    some ("100.500000000000" : String) ≠ some ("100.5" : String) := by
  refine ⟨by with_unfolding_all decide, by decide⟩

/-- C8, amended.  Binance preserves the exact venue-supplied price strings
in `bid_str`/`ask_str`; Kraken (whose venue also supplies price strings)
instead publishes fixed twelve-decimal re-renderings of the parsed float
keys, so the venue string is not preserved there. -/
theorem C8_string_preservation_amended :
    (∀ batch sym b0 bs a0 as1 now pair q,
      binanceStep batch ⟨sym, b0 :: bs, a0 :: as1⟩ now = some (pair, q) →
      q.bid_str = some b0.px ∧ q.ask_str = some a0.px) ∧
    (∀ bk now q, krakenPublish bk now = some q →
      q.bid_str = (maxKey bk.bids).map (fun x => pyFormatF x 12) ∧
      q.ask_str = (minKey bk.asks).map (fun x => pyFormatF x 12)) := by
  constructor
  · intro batch sym b0 bs a0 as1 now pair q h
    rw [binanceStep] at h
    cases hfind : batch.find? (fun p => pairToBinance p == sym) with
    | none => rw [hfind] at h; exact Option.noConfusion h
    | some pr =>
      rw [hfind] at h
      simp only at h
      cases h1 : pyFloatOfString b0.px <;> simp only [h1] at h
      · exact Option.noConfusion h
      cases h2 : pyFloatOfString b0.sz <;> simp only [h2] at h
      · exact Option.noConfusion h
      cases h3 : pyFloatOfString a0.px <;> simp only [h3] at h
      · exact Option.noConfusion h
      cases h4 : pyFloatOfString a0.sz <;> simp only [h4] at h
      · exact Option.noConfusion h
      cases h
      exact ⟨rfl, rfl⟩
  · intro bk now q h
    exact ((krakenPublish_pub_iff bk now).2 q h).2

theorem C8_string_preservation_amended_witness :
    binanceStep ["BTC/USDT"] ⟨"BTCUSDT", [⟨"1.0", "2.0"⟩], [⟨"1.1", "3"⟩]⟩ 99 =
      some ("BTC/USDT",
        { bid := some 1, ask := some (11 / 10), bid_sz := some 2,
          ask_sz := some 3, bid_str := some "1.0", ask_str := some "1.1",
          ts_ms := 99 }) ∧
    ({ bid := some 1, ask := some (11 / 10), bid_sz := some 2,
       ask_sz := some 3, bid_str := some "1.0", ask_str := some "1.1",
       ts_ms := 99 } : Quote).bid_str = some "1.0" :=
  ⟨by with_unfolding_all decide,
    (C8_string_preservation_amended.1 ["BTC/USDT"] "BTCUSDT" ⟨"1.0", "2.0"⟩ []
      ⟨"1.1", "3"⟩ [] 99 "BTC/USDT" _ (by with_unfolding_all decide)).1⟩

theorem takeWhile_append_all {α : Type} {p : α → Bool} {X : List α} (Y : List α)
    (h : ∀ c ∈ X, p c = true) :
    (X ++ Y).takeWhile p = X ++ Y.takeWhile p := by
  induction X with
  | nil => simp
  | cons c t ih =>
    rw [List.cons_append, List.takeWhile_cons_of_pos (h c (List.mem_cons_self c t)),
      ih (fun c hc => h c (List.mem_cons_of_mem _ hc))]
    rfl

theorem dropWhile_append_all {α : Type} {p : α → Bool} {X : List α} (Y : List α)
    (h : ∀ c ∈ X, p c = true) :
    (X ++ Y).dropWhile p = Y.dropWhile p := by
  induction X with
  | nil => simp
  | cons c t ih =>
    rw [List.cons_append, List.dropWhile_cons_of_pos (h c (List.mem_cons_self c t)),
      ih (fun c hc => h c (List.mem_cons_of_mem _ hc))]

theorem dropWhile_append_of_nil {α : Type} {p : α → Bool} {X : List α}
    (Y : List α) (h : X.dropWhile p = []) :
    (X ++ Y).dropWhile p = Y.dropWhile p :=
  dropWhile_append_all Y (fun c hc => by
    have := List.dropWhile_eq_nil_iff.mp h c hc
    simpa using this)

theorem dropWhile_append_of_ne {α : Type} {p : α → Bool} {X : List α}
    (Y : List α) (h : X.dropWhile p ≠ []) :
    (X ++ Y).dropWhile p = X.dropWhile p ++ Y := by
  induction X with
  | nil => simp at h
  | cons c t ih =>
    by_cases hp : p c = true
    · rw [List.dropWhile_cons_of_pos hp] at h
      rw [List.cons_append, List.dropWhile_cons_of_pos hp, ih h,
        List.dropWhile_cons_of_pos hp]
    · have hp2 : ¬ p c = true := hp
      rw [List.cons_append, List.dropWhile_cons_of_neg hp2,
        List.dropWhile_cons_of_neg hp2, List.cons_append]

theorem head_dropWhile_not {α : Type} {p : α → Bool} :
    ∀ {X : List α} {c : α} {t : List α}, X.dropWhile p = c :: t → p c = false := by
  intro X
  induction X with
  | nil => intro c t h; exact absurd h (by simp)
  | cons x xs ih =>
    intro c t h
    by_cases hp : p x = true
    · rw [List.dropWhile_cons_of_pos hp] at h
      exact ih h
    · rw [List.dropWhile_cons_of_neg hp] at h
      cases h
      exact Bool.eq_false_iff.mpr hp

theorem mem_of_dropWhile_cons {α : Type} {p : α → Bool} :
    ∀ {X : List α} {c : α} {t : List α}, X.dropWhile p = c :: t → c ∈ X := by
  intro X
  induction X with
  | nil => intro c t h; exact absurd h (by simp)
  | cons x xs ih =>
    intro c t h
    by_cases hp : p x = true
    · rw [List.dropWhile_cons_of_pos hp] at h
      exact List.mem_cons_of_mem _ (ih h)
    · rw [List.dropWhile_cons_of_neg hp] at h
      cases h
      exact List.mem_cons_self _ _

theorem digitChar_isDigC : ∀ d, d < 10 → isDigC (digitChar d) = true := by decide

theorem digitChar_ne_dot : ∀ d, d < 10 → digitChar d ≠ '.' := by decide

theorem digitChar_ne_sign : ∀ d, d < 10 → digitChar d ≠ '-' ∧ digitChar d ≠ '+' := by
  decide

theorem digitChar_eq_zero_iff : ∀ d, d < 10 → ((digitChar d = '0') ↔ d = 0) := by
  decide

theorem charToDigit_digitChar : ∀ d, d < 10 → charToDigit (digitChar d) = d := by
  decide

theorem isDigC_ne_dot {c : Char} (h : isDigC c = true) : c ≠ '.' := by
  intro hc
  subst hc
  exact absurd h (by decide)

theorem fromDigitsBE_foldl (l : List ℕ) :
    ∀ a, l.foldl (fun x d => 10 * x + d) a = a * 10 ^ l.length + fromDigitsBE l := by
  induction l with
  | nil => intro a; simp [fromDigitsBE]
  | cons d t ih =>
    intro a
    have h1 : (d :: t).foldl (fun x d => 10 * x + d) a =
        t.foldl (fun x d => 10 * x + d) (10 * a + d) := rfl
    have h2 : fromDigitsBE (d :: t) = t.foldl (fun x d => 10 * x + d) d := by
      simp [fromDigitsBE, List.foldl_cons]
    rw [h1, ih (10 * a + d), h2, ih d, List.length_cons, pow_succ]
    ring

theorem fromDigitsBE_append (l1 l2 : List ℕ) :
    fromDigitsBE (l1 ++ l2) =
      fromDigitsBE l1 * 10 ^ l2.length + fromDigitsBE l2 := by
  rw [fromDigitsBE, List.foldl_append]
  exact fromDigitsBE_foldl l2 (fromDigitsBE l1)

theorem fromDigitsBE_replicate_zero (k : ℕ) :
    fromDigitsBE (List.replicate k 0) = 0 := by
  induction k with
  | zero => rfl
  | succ n ih =>
    rw [List.replicate_succ, fromDigitsBE, List.foldl_cons]
    simpa [fromDigitsBE] using ih

theorem fromDigitsBE_append_zeros (l : List ℕ) (k : ℕ) :
    fromDigitsBE (l ++ List.replicate k 0) = fromDigitsBE l * 10 ^ k := by
  rw [fromDigitsBE_append, fromDigitsBE_replicate_zero, List.length_replicate,
    add_zero]

theorem fromDigitsBE_snoc (l : List ℕ) (d : ℕ) :
    fromDigitsBE (l ++ [d]) = 10 * fromDigitsBE l + d := by
  rw [fromDigitsBE_append]
  simp [fromDigitsBE]
  ring

theorem fromDigitsBE_all_zero {l : List ℕ} (h : ∀ d ∈ l, d = 0) :
    fromDigitsBE l = 0 := by
  induction l with
  | nil => rfl
  | cons d t ih =>
    have hd : d = 0 := h d (List.mem_cons_self d t)
    have h1 : fromDigitsBE (d :: t) = t.foldl (fun x d => 10 * x + d) d := by
      simp [fromDigitsBE, List.foldl_cons]
    rw [h1, hd, fromDigitsBE_foldl]
    simpa using ih (fun d hd => h d (List.mem_cons_of_mem _ hd))

theorem foldl_digitChar_aux (l : List ℕ) (h : ∀ d ∈ l, d < 10) :
    ∀ a, (l.map digitChar).foldl (fun x c => 10 * x + charToDigit c) a =
      l.foldl (fun x d => 10 * x + d) a := by
  induction l with
  | nil => intro a; rfl
  | cons d t ih =>
    intro a
    have hd := charToDigit_digitChar d (h d (List.mem_cons_self d t))
    simp only [List.map_cons, List.foldl_cons, hd]
    exact ih (fun x hx => h x (List.mem_cons_of_mem _ hx)) _

theorem digitsOfChars_map (l : List ℕ) (h : ∀ d ∈ l, d < 10) :
    digitsOfChars (l.map digitChar) = fromDigitsBE l := by
  rw [digitsOfChars, fromDigitsBE]
  exact foldl_digitChar_aux l h 0

theorem digitsBEAux_congr :
    ∀ (f1 : ℕ), ∀ {k f2 : ℕ}, k ≤ f1 → k ≤ f2 →
      digitsBEAux f1 k = digitsBEAux f2 k := by
  intro f1
  induction f1 with
  | zero =>
    intro k f2 h1 _
    interval_cases k
    cases f2 <;> rfl
  | succ m ih =>
    intro k f2 h1 h2
    cases k with
    | zero => cases f2 <;> rfl
    | succ n =>
      cases f2 with
      | zero => omega
      | succ m2 =>
        show digitsBEAux m ((n + 1) / 10) ++ [(n + 1) % 10] =
          digitsBEAux m2 ((n + 1) / 10) ++ [(n + 1) % 10]
        have hd : (n + 1) / 10 ≤ n := by omega
        exact congrArg (fun x => x ++ [(n + 1) % 10])
          (ih (show (n + 1) / 10 ≤ m by omega) (show (n + 1) / 10 ≤ m2 by omega))

theorem digitsBE_step (n : ℕ) (h : n ≠ 0) :
    digitsBE n = digitsBE (n / 10) ++ [n % 10] := by
  cases n with
  | zero => exact absurd rfl h
  | succ m =>
    show digitsBEAux m ((m + 1) / 10) ++ [(m + 1) % 10] = _
    rw [digitsBE, digitsBEAux_congr m (by omega) (le_refl _)]

theorem digitsBE_ne_nil {n : ℕ} (h : n ≠ 0) : digitsBE n ≠ [] := by
  rw [digitsBE_step n h]
  simp

theorem digitsBE_fromDigitsBE (l : List ℕ) (h : ∀ d ∈ l, d < 10) :
    digitsBE (fromDigitsBE l) = l.dropWhile (fun d => decide (d = 0)) := by
  induction l using List.reverseRecOn with
  | nil => rfl
  | append_singleton l d ih =>
    have hl : ∀ x ∈ l, x < 10 := fun x hx => h x (List.mem_append_left _ hx)
    have hd : d < 10 := h d (List.mem_append_right _ (List.mem_cons_self d []))
    rw [fromDigitsBE_snoc]
    by_cases h0 : 10 * fromDigitsBE l + d = 0
    · have hv : fromDigitsBE l = 0 := by omega
      have hdz : d = 0 := by omega
      have hdrop : l.dropWhile (fun d => decide (d = 0)) = [] := by
        rw [← ih hl, hv]
        rfl
      rw [h0, hdz, dropWhile_append_of_nil _ hdrop]
      rfl
    · have hstep : digitsBE (10 * fromDigitsBE l + d) =
          digitsBE ((10 * fromDigitsBE l + d) / 10) ++
            [(10 * fromDigitsBE l + d) % 10] := digitsBE_step _ h0
      have hdiv : (10 * fromDigitsBE l + d) / 10 = fromDigitsBE l := by omega
      have hmod : (10 * fromDigitsBE l + d) % 10 = d := by omega
      rw [hstep, hdiv, hmod, ih hl]
      by_cases hnil : l.dropWhile (fun d => decide (d = 0)) = []
      · have hv : fromDigitsBE l = 0 := by
          apply fromDigitsBE_all_zero
          intro x hx
          have := List.dropWhile_eq_nil_iff.mp hnil x hx
          simpa using this
        have hdz : d ≠ 0 := by omega
        rw [hnil, dropWhile_append_of_nil _ hnil,
          List.dropWhile_cons_of_neg (by simpa using hdz)]
        rfl
      · rw [dropWhile_append_of_ne _ hnil]

theorem length_dropWhile_le_self {α : Type} (p : α → Bool) (l : List α) :
    (l.dropWhile p).length ≤ l.length := by
  induction l with
  | nil => simp
  | cons c t ih =>
    by_cases hp : p c = true
    · rw [List.dropWhile_cons_of_pos hp]
      exact le_trans ih (by simp)
    · rw [List.dropWhile_cons_of_neg hp]

theorem dropWhile_zero_replicate_prefix (l : List ℕ) :
    l = List.replicate
        (l.length - (l.dropWhile (fun d => decide (d = 0))).length) 0 ++
      l.dropWhile (fun d => decide (d = 0)) := by
  induction l with
  | nil => rfl
  | cons d t ih =>
    by_cases hd : d = 0
    · subst hd
      rw [List.dropWhile_cons_of_pos (by simp)]
      have hle : (t.dropWhile (fun d => decide (d = 0))).length ≤ t.length :=
        length_dropWhile_le_self _ _
      have : (0 :: t).length - (t.dropWhile (fun d => decide (d = 0))).length =
          (t.length - (t.dropWhile (fun d => decide (d = 0))).length) + 1 := by
        simp only [List.length_cons]
        omega
      rw [this, List.replicate_succ, List.cons_append]
      exact congrArg (0 :: ·) ih
    · rw [List.dropWhile_cons_of_neg (by simpa using hd)]
      simp

theorem padZeros_digitsBE_restore (l : List ℕ) (n : ℕ)
    (hlen : n ≤ l.length) (hall : ∀ d ∈ l, d < 10)
    (hhead : l.head? = some 0 → l.length = n) :
    padZeros n (digitsBE (fromDigitsBE l)) = l := by
  rw [digitsBE_fromDigitsBE l hall, padZeros]
  have hrep := dropWhile_zero_replicate_prefix l
  have hlt := length_dropWhile_le_self (fun d => decide (d = 0)) l
  have key : n - (l.dropWhile (fun d => decide (d = 0))).length =
      l.length - (l.dropWhile (fun d => decide (d = 0))).length := by
    cases l with
    | nil =>
      simp only [List.length_nil] at hlen
      simp only [List.dropWhile_nil, List.length_nil]
      omega
    | cons c ts =>
      simp only [List.length_cons] at hlen
      by_cases hc : c = 0
      · have := hhead (by simp [hc])
        simp only [List.length_cons] at this hlt ⊢
        omega
      · rw [List.dropWhile_cons_of_neg (by simpa using hc)]
        simp only [List.length_cons]
        omega
  rw [key]
  exact hrep.symm

theorem takeWhile_all {α : Type} {p : α → Bool} {X : List α}
    (h : ∀ c ∈ X, p c = true) : X.takeWhile p = X := by
  have := takeWhile_append_all (p := p) (X := X) [] h
  simpa using this

theorem dropWhile_all {α : Type} {p : α → Bool} {X : List α}
    (h : ∀ c ∈ X, p c = true) : X.dropWhile p = [] := by
  have := dropWhile_append_all (p := p) (X := X) [] h
  simpa using this

theorem parseNumeric_digits (neg : Bool) (int frac : List ℕ)
    (hi : ∀ d ∈ int, d < 10) (hf : ∀ d ∈ frac, d < 10) (hne : int ≠ []) :
    parseNumeric neg
      (int.map digitChar ++
        (if frac = [] then [] else '.' :: frac.map digitChar)) =
      some (PyDec.finite
        ⟨neg, fromDigitsBE (int ++ frac), -(frac.length : ℤ)⟩) := by
  have hIdig : ∀ c ∈ int.map digitChar, isDigC c = true := by
    intro c hc
    rcases List.mem_map.mp hc with ⟨d, hd, rfl⟩
    exact digitChar_isDigC d (hi d hd)
  have hFdig : ∀ c ∈ frac.map digitChar, isDigC c = true := by
    intro c hc
    rcases List.mem_map.mp hc with ⟨d, hd, rfl⟩
    exact digitChar_isDigC d (hf d hd)
  have hInil : int.map digitChar ≠ [] := by simpa using hne
  have hdotD : isDigC '.' = false := by decide
  by_cases hfr : frac = []
  · subst hfr
    rw [if_pos rfl, List.append_nil]
    simp only [parseNumeric, takeWhile_all hIdig, dropWhile_all hIdig]
    simp [hInil, parseExpPart, digitsOfChars_map int hi]
  · have ht : (int.map digitChar ++ '.' :: frac.map digitChar).takeWhile isDigC =
        int.map digitChar := by
      rw [takeWhile_append_all _ hIdig, List.takeWhile_cons_of_neg (by simp [hdotD])]
      simp
    have hd : (int.map digitChar ++ '.' :: frac.map digitChar).dropWhile isDigC =
        '.' :: frac.map digitChar := by
      rw [dropWhile_append_all _ hIdig, List.dropWhile_cons_of_neg (by simp [hdotD])]
    have hall : ∀ d ∈ int ++ frac, d < 10 := by
      intro d hd0
      rcases List.mem_append.mp hd0 with h | h
      · exact hi d h
      · exact hf d h
    rw [if_neg hfr]
    simp only [parseNumeric, ht, hd, takeWhile_all hFdig, dropWhile_all hFdig]
    simp [hInil, parseExpPart, ← List.map_append, digitsOfChars_map (int ++ frac) hall]

theorem parseDecimal_render (ds : DecStr) (hwf : ds.WF) :
    parseDecimal ds.render = some (PyDec.finite ds.toDecNum) := by
  obtain ⟨hne, hiD, hfD, _⟩ := hwf
  obtain ⟨d0, int', hint⟩ : ∃ d0 int', ds.intDigits = d0 :: int' := by
    cases h : ds.intDigits with
    | nil => exact absurd h hne
    | cons a b => exact ⟨a, b, rfl⟩
  have hd0 : d0 < 10 := hiD d0 (by rw [hint]; exact List.mem_cons_self _ _)
  have hlist : ds.render.toList =
      (if ds.neg then ['-'] else []) ++
        (ds.intDigits.map digitChar ++
          (if ds.fracDigits = [] then []
            else '.' :: ds.fracDigits.map digitChar)) := by
    rw [DecStr.render]
    simp [String.toList]
  have hnum := parseNumeric_digits ds.neg ds.intDigits ds.fracDigits hiD hfD hne
  have hsign : parseSign ds.render.toList =
      (ds.neg,
        ds.intDigits.map digitChar ++
          (if ds.fracDigits = [] then []
            else '.' :: ds.fracDigits.map digitChar)) := by
    rw [hlist]
    cases hn : ds.neg with
    | false =>
      simp only [Bool.false_eq_true, if_false, List.nil_append]
      rw [hint]
      simp only [List.map_cons, List.cons_append, parseSign]
      rw [if_neg (digitChar_ne_sign d0 hd0).1, if_neg (digitChar_ne_sign d0 hd0).2]
    | true =>
      simp only [if_true, List.singleton_append, parseSign]
  have hne2 : ds.intDigits.map digitChar ++
      (if ds.fracDigits = [] then []
        else '.' :: ds.fracDigits.map digitChar) ≠ [] := by
    rw [hint]
    simp
  simp only [parseDecimal, hsign]
  rw [if_neg hne2, hnum]
  rw [DecStr.toDecNum]

theorem stripTrailing_no_dot {L : List Char} (h : '.' ∉ L) :
    stripTrailing L = L := by
  rw [stripTrailing, if_neg h]

theorem rstripChar_append_replicate (c : Char) (X : List Char) (k : ℕ) :
    rstripChar c (X ++ List.replicate k c) = rstripChar c X := by
  rw [rstripChar, rstripChar, List.reverse_append, List.reverse_replicate,
    dropWhile_append_all _ (by
      intro x hx
      rcases List.eq_of_mem_replicate hx with rfl
      simp)]

theorem stripTrailing_split (A0 : List Char) (a : Char) (ha0 : a ≠ '.')
    (M : List Char) (hM : ∀ c ∈ M, c ≠ '.') :
    stripTrailing ((A0 ++ [a]) ++ '.' :: M) =
      (A0 ++ [a]) ++
        (if rstripChar '0' M = [] then [] else '.' :: rstripChar '0' M) := by
  have hdot : ('.' : Char) ∈ (A0 ++ [a]) ++ '.' :: M := by simp
  rw [stripTrailing, if_pos hdot]
  have hrev : ((A0 ++ [a]) ++ '.' :: M).reverse =
      M.reverse ++ '.' :: a :: A0.reverse := by
    simp
  by_cases hM0 : M.reverse.dropWhile (fun x => decide (x = '0')) = []
  · have h1 : rstripChar '0' ((A0 ++ [a]) ++ '.' :: M) = (A0 ++ [a]) ++ ['.'] := by
      rw [rstripChar, hrev, dropWhile_append_of_nil _ hM0,
        List.dropWhile_cons_of_neg (by decide)]
      simp
    have h2 : rstripChar '.' ((A0 ++ [a]) ++ ['.']) = A0 ++ [a] := by
      rw [rstripChar]
      simp only [List.reverse_append, List.reverse_cons, List.reverse_nil,
        List.nil_append, List.singleton_append]
      rw [List.dropWhile_cons_of_pos (by simp),
        List.dropWhile_cons_of_neg (by simpa using ha0)]
      simp
    have h3 : rstripChar '0' M = [] := by
      rw [rstripChar, hM0]
      rfl
    rw [h1, h2, h3, if_pos rfl, List.append_nil]
  · obtain ⟨c, t, hct⟩ : ∃ c t,
        M.reverse.dropWhile (fun x => decide (x = '0')) = c :: t := by
      cases h : M.reverse.dropWhile (fun x => decide (x = '0')) with
      | nil => exact absurd h hM0
      | cons c t => exact ⟨c, t, rfl⟩
    have hcM : c ∈ M := List.mem_reverse.mp (mem_of_dropWhile_cons hct)
    have hcd : c ≠ '.' := hM c hcM
    have h1 : rstripChar '0' ((A0 ++ [a]) ++ '.' :: M) =
        (A0 ++ [a]) ++ '.' :: rstripChar '0' M := by
      rw [rstripChar, hrev, dropWhile_append_of_ne _ (by rw [hct]; simp), hct]
      rw [rstripChar, hct]
      simp
    have hM' : rstripChar '0' M = (c :: t).reverse := by
      rw [rstripChar, hct]
    have h2 : rstripChar '.' ((A0 ++ [a]) ++ '.' :: rstripChar '0' M) =
        (A0 ++ [a]) ++ '.' :: rstripChar '0' M := by
      rw [rstripChar]
      have hrev2 : ((A0 ++ [a]) ++ '.' :: rstripChar '0' M).reverse =
          (rstripChar '0' M).reverse ++ '.' :: a :: A0.reverse := by
        simp
      rw [hrev2, hM', List.reverse_reverse]
      have hstop : List.dropWhile (fun x => decide (x = '.'))
          (c :: (t ++ '.' :: a :: A0.reverse)) =
          c :: (t ++ '.' :: a :: A0.reverse) :=
        List.dropWhile_cons_of_neg (by simpa using hcd)
      rw [List.cons_append, hstop]
      simp
    rw [h1, h2, hM', if_neg (by simp)]

theorem renderDec_decStr (ds : DecStr) (hwf : ds.WF)
    (hfrac : ds.fracDigits.length ≤ 12) (hint8 : ds.intDigits.length ≤ 8) :
    renderDec (PyDec.finite ds.toDecNum) 12 = canonicalize ds.render := by
  obtain ⟨hne, hiD, hfD, hlead⟩ := hwf
  obtain ⟨d0, int', hint⟩ : ∃ d0 int', ds.intDigits = d0 :: int' := by
    cases h : ds.intDigits with
    | nil => exact absurd h hne
    | cons a b => exact ⟨a, b, rfl⟩
  have hfull10 : ∀ d ∈ (ds.intDigits ++ ds.fracDigits) ++
      List.replicate (12 - ds.fracDigits.length) 0, d < 10 := by
    intro d hd
    rcases List.mem_append.mp hd with h | h
    · rcases List.mem_append.mp h with h | h
      · exact hiD d h
      · exact hfD d h
    · rcases List.eq_of_mem_replicate h with rfl
      omega
  have hlenfull : ((ds.intDigits ++ ds.fracDigits) ++
      List.replicate (12 - ds.fracDigits.length) 0).length =
      ds.intDigits.length + 12 := by
    simp only [List.length_append, List.length_replicate]
    omega
  have hq : quantizeDown (fromDigitsBE (ds.intDigits ++ ds.fracDigits))
      (-(ds.fracDigits.length : ℤ)) 12 =
      fromDigitsBE ((ds.intDigits ++ ds.fracDigits) ++
        List.replicate (12 - ds.fracDigits.length) 0) := by
    rw [quantizeDown, if_pos (by omega)]
    have htn : (-(ds.fracDigits.length : ℤ) + (12 : ℕ)).toNat =
        12 - ds.fracDigits.length := by omega
    rw [htn, fromDigitsBE_append_zeros]
  have hcap : ¬ (numDigits (fromDigitsBE ((ds.intDigits ++ ds.fracDigits) ++
      List.replicate (12 - ds.fracDigits.length) 0)) > 12 + 8) := by
    have h1 : numDigits (fromDigitsBE ((ds.intDigits ++ ds.fracDigits) ++
        List.replicate (12 - ds.fracDigits.length) 0)) ≤
        ds.intDigits.length + 12 := by
      rw [numDigits, digitsBE_fromDigitsBE _ hfull10, ← hlenfull]
      exact length_dropWhile_le_self _ _
    omega
  have hpad : padZeros 13 (digitsBE (fromDigitsBE ((ds.intDigits ++
      ds.fracDigits) ++ List.replicate (12 - ds.fracDigits.length) 0))) =
      (ds.intDigits ++ ds.fracDigits) ++
        List.replicate (12 - ds.fracDigits.length) 0 := by
    apply padZeros_digitsBE_restore
    · rw [hlenfull]
      have : 1 ≤ ds.intDigits.length := by rw [hint]; simp
      omega
    · exact hfull10
    · intro hh
      have hhead : ((ds.intDigits ++ ds.fracDigits) ++
          List.replicate (12 - ds.fracDigits.length) 0).head? = some d0 := by
        rw [hint]
        simp
      rw [hhead] at hh
      have hd0z : d0 = 0 := Option.some.inj hh
      have hone : ds.intDigits = [0] := hlead (by rw [hint, hd0z]; rfl)
      rw [hlenfull, hone]
      rfl
  have hfx : fixedRender ds.neg (fromDigitsBE ((ds.intDigits ++
      ds.fracDigits) ++ List.replicate (12 - ds.fracDigits.length) 0)) 12 =
      (if ds.neg then ['-'] else []) ++
        (ds.intDigits.map digitChar ++
          '.' :: (ds.fracDigits ++
            List.replicate (12 - ds.fracDigits.length) 0).map digitChar) := by
    rw [fixedRender]
    simp only [hpad, if_neg (show ¬ (12 = 0) by omega)]
    have htk : (((ds.intDigits ++ ds.fracDigits) ++
        List.replicate (12 - ds.fracDigits.length) 0).length - 12) =
        ds.intDigits.length := by
      rw [hlenfull]
      omega
    rw [htk]
    have hassoc : (ds.intDigits ++ ds.fracDigits) ++
        List.replicate (12 - ds.fracDigits.length) 0 =
        ds.intDigits ++ (ds.fracDigits ++
          List.replicate (12 - ds.fracDigits.length) 0) :=
      List.append_assoc _ _ _
    rw [hassoc, List.take_left, List.drop_left]
    by_cases hneg : ds.neg <;> simp [hneg]
  rw [renderDec]
  simp only [DecStr.toDecNum, hq, hfx]
  rw [if_neg hcap]
  obtain ⟨int0, dl, hconcat0⟩ :=
    (List.eq_nil_or_concat ds.intDigits).resolve_left hne
  have hconcat : ds.intDigits = int0 ++ [dl] := by
    simpa [List.concat_eq_append] using hconcat0
  have hdl10 : dl < 10 := hiD dl (by rw [hconcat]; simp)
  have hshape : (if ds.neg then ['-'] else []) ++
      (ds.intDigits.map digitChar ++
        '.' :: (ds.fracDigits ++
          List.replicate (12 - ds.fracDigits.length) 0).map digitChar) =
      (((if ds.neg then ['-'] else []) ++ int0.map digitChar) ++
        [digitChar dl]) ++
        '.' :: (ds.fracDigits ++
          List.replicate (12 - ds.fracDigits.length) 0).map digitChar := by
    rw [hconcat]
    simp
  have hGdot : ∀ c ∈ (ds.fracDigits ++
      List.replicate (12 - ds.fracDigits.length) 0).map digitChar,
      c ≠ '.' := by
    intro c hc
    rcases List.mem_map.mp hc with ⟨d, hd, rfl⟩
    refine digitChar_ne_dot d ?_
    rcases List.mem_append.mp hd with h | h
    · exact hfD d h
    · rcases List.eq_of_mem_replicate h with rfl
      omega
  have hFdot : ∀ c ∈ ds.fracDigits.map digitChar, c ≠ '.' := by
    intro c hc
    rcases List.mem_map.mp hc with ⟨d, hd, rfl⟩
    exact digitChar_ne_dot d (hfD d hd)
  have hadl : digitChar dl ≠ '.' := digitChar_ne_dot dl hdl10
  have hstrip1 : stripTrailing ((if ds.neg then ['-'] else []) ++
      (ds.intDigits.map digitChar ++
        '.' :: (ds.fracDigits ++
          List.replicate (12 - ds.fracDigits.length) 0).map digitChar)) =
      (((if ds.neg then ['-'] else []) ++ int0.map digitChar) ++
        [digitChar dl]) ++
        (if rstripChar '0' (ds.fracDigits.map digitChar) = [] then []
          else '.' :: rstripChar '0' (ds.fracDigits.map digitChar)) := by
    rw [hshape, stripTrailing_split _ _ hadl _ hGdot]
    have hGrep : (ds.fracDigits ++
        List.replicate (12 - ds.fracDigits.length) 0).map digitChar =
        ds.fracDigits.map digitChar ++
          List.replicate (12 - ds.fracDigits.length) '0' := by
      rw [List.map_append, List.map_replicate]
      rfl
    rw [hGrep, rstripChar_append_replicate]
  have hlist2 : ds.render.toList =
      (((if ds.neg then ['-'] else []) ++ int0.map digitChar) ++
        [digitChar dl]) ++
        (if ds.fracDigits = [] then []
          else '.' :: ds.fracDigits.map digitChar) := by
    rw [DecStr.render]
    simp [String.toList, hconcat]
  have hstrip2 : stripTrailing ds.render.toList =
      (((if ds.neg then ['-'] else []) ++ int0.map digitChar) ++
        [digitChar dl]) ++
        (if rstripChar '0' (ds.fracDigits.map digitChar) = [] then []
          else '.' :: rstripChar '0' (ds.fracDigits.map digitChar)) := by
    rw [hlist2]
    have hnodot : ('.' : Char) ∉
        ((if ds.neg then ['-'] else []) ++ int0.map digitChar) ++
          [digitChar dl] := by
      intro hmem
      rcases List.mem_append.mp hmem with h | h
      · rcases List.mem_append.mp h with h | h
        · by_cases hneg : ds.neg <;> simp [hneg] at h
        · rcases List.mem_map.mp h with ⟨d, hd, hdc⟩
          exact digitChar_ne_dot d (hiD d (by rw [hconcat]; simp [hd])) hdc
      · simp at h
        exact hadl h.symm
    by_cases hfr : ds.fracDigits = []
    · rw [if_pos hfr, List.append_nil, stripTrailing_no_dot hnodot, hfr]
      rw [show rstripChar '0' (List.map digitChar ([] : List ℕ)) = [] from rfl,
        if_pos rfl, List.append_nil]
    · rw [if_neg hfr, stripTrailing_split _ _ hadl _ hFdot]
  rw [canonicalize, hstrip1, ← hstrip2]

theorem prettyNumber_decStr (ds : DecStr) (f : Option PyFloat) (hwf : ds.WF)
    (hfrac : ds.fracDigits.length ≤ 12) (hint8 : ds.intDigits.length ≤ 8) :
    prettyNumber (some ds.render) f 12 = canonicalize ds.render := by
  simp only [prettyNumber, parseDecimal_render ds hwf]
  exact renderDec_decStr ds hwf hfrac hint8

/-- C5, counterexample.  The decimal string `"123456789.1"` has one
fractional digit (≤ `MAX_DECIMALS`), yet `format` returns `"None"` instead
of `canonicalize("123456789.1") = "123456789.1"`: quantizing to 12
fractional digits needs a 21-digit coefficient, which exceeds the context
precision `max_dec + 8 = 20` set by `_pretty_number`, so `quantize` raises
`InvalidOperation` — the claim's "regardless of how many integer digits"
fails beyond 8 integer digits. -/
theorem C5_formatter_counterexample :
    prettyNumber (some "123456789.1") none 12 = "None" ∧
    canonicalize "123456789.1" = "123456789.1" ∧
    ("None" : String) ≠ "123456789.1" := by
  refine ⟨by decide, by decide, by decide⟩

/-- C5, amended.  For every well-formed plain finite decimal string with at
most `MAX_DECIMALS = 12` fractional digits AND at most 8 integer digits
(so that the quantized coefficient fits the context precision
`max_dec + 8 = 20`), and any float argument, `format(s, *)` equals
`canonicalize(s)`. -/
theorem C5_formatter_amended (ds : DecStr) (f : Option PyFloat) (hwf : ds.WF)
    (hfrac : ds.fracDigits.length ≤ 12) (hint8 : ds.intDigits.length ≤ 8) :
    prettyNumber (some ds.render) f 12 = canonicalize ds.render :=
  prettyNumber_decStr ds f hwf hfrac hint8

theorem C5_formatter_amended_witness :
    (⟨false, [0], [0, 1, 0]⟩ : DecStr).WF ∧
    (⟨false, [0], [0, 1, 0]⟩ : DecStr).fracDigits.length ≤ 12 ∧
    (⟨false, [0], [0, 1, 0]⟩ : DecStr).intDigits.length ≤ 8 ∧
    prettyNumber (some (DecStr.render ⟨false, [0], [0, 1, 0]⟩)) none 12 =
      canonicalize (DecStr.render ⟨false, [0], [0, 1, 0]⟩) :=
  ⟨by decide, by decide, by decide,
    C5_formatter_amended ⟨false, [0], [0, 1, 0]⟩ none (by decide) (by decide)
      (by decide)⟩

end Airbitrage
